import Mathlib

/-!
Verification of the `jun` HTML/CSS parsing core.

This file is a shallow embedding of the two recursive-descent parsers of the
repository (`src/html.rs`, `src/css.rs`) and of the shared character-cursor
primitives they are built on, together with theorems settling the claims about
them.

Embedding conventions:
* The input string is a `List Char`; the cursor position `pos` is a *byte*
  offset into its UTF-8 encoding, exactly as in the Rust source (`pos: usize`
  indexing `input: String`).  `drop_bytes input pos` models the slice
  `&input[pos..]`: it returns `none` when the slice operation would panic
  (position out of range or not on a character boundary).
* Every Rust panic site (a failed `assert!`/`assert_eq!`, an `unwrap()` on
  `None`, a slice panic, or an explicit `panic!`) is modelled as an
  `Except.error` with a distinct `Err` constructor named after the error
  taxonomy of the design document, so that which failure fires on a given
  input is part of the embedded behaviour.
* Loops and the mutual recursion of the HTML grammar are given a fuel
  parameter (`Err.outOfFuel` on exhaustion).  The fuel supplied by the entry
  points is generous enough for every input actually reachable (each loop
  iteration consumes at least one byte); all universally-quantified theorems
  are stated about parses that return `.ok`, so fuel exhaustion never makes a
  statement spuriously true about a run the Rust code completes.
* `char::is_whitespace` is modelled by `Char.isWhitespace` (ASCII whitespace;
  the Rust predicate additionally accepts some non-ASCII codepoints, which no
  claim depends on).
-/

namespace Jun

/-- Failure kinds.  Each constructor corresponds to a distinct panic site in
the Rust source, named following the error taxonomy of the design document:
`unexpectedEndOfInput` is the `unwrap()` of `chars().next()` on an empty
slice in `next_char`/`consume_char`; `invalidPos` is the panic of the string
slice `&input[pos..]` itself (out of range or not a char boundary);
`malformedTag` is a failed `assert!` on an expected literal character;
`tagMismatch` is the failed `assert!(self.parse_tag_name() == tag_name)`;
`unterminatedAttributeValue` is the failed closing-quote `assert!` in
`parse_attr_value`; `unexpectedCharacterInSelectorList` is the `panic!` in
`parse_selectors`; `cssAssert` covers the `assert_eq!` sites of the CSS
declaration grammar; `unknownUnit`, `invalidColorLiteral` and
`emptyIdentifier` belong to the spec-modelled CSS value grammar.
`outOfFuel` is an artefact of the fuelled embedding, not of the source. -/
inductive Err where
  | unexpectedEndOfInput
  | invalidPos
  | outOfFuel
  | malformedTag
  | tagMismatch
  | unterminatedAttributeValue
  | unexpectedCharacterInSelectorList
  | cssAssert
  | unknownUnit
  | invalidColorLiteral
  | emptyIdentifier
deriving DecidableEq

/-- Number of bytes of the UTF-8 encoding of a character list (models
`String::len`). -/
def byteLen : List Char → Nat
  | [] => 0
  | c :: cs => c.utf8Size + byteLen cs

/-- Model of the Rust slice `&input[pos..]`: the list of characters starting
at byte offset `pos`, or `none` when the slice would panic because `pos` is
past the end of the string or not on a character boundary. -/
def drop_bytes : List Char → Nat → Option (List Char)
  | cs, 0 => some cs
  | [], _ + 1 => none
  | c :: cs, n + 1 => if c.utf8Size ≤ n + 1 then drop_bytes cs (n + 1 - c.utf8Size) else none

/-- `pos` is a valid position for slicing the input (a character boundary or
the end of the string). -/
def boundary (input : List Char) (pos : Nat) : Bool :=
  (drop_bytes input pos).isSome

/-- `Parser::eof`: `self.pos >= self.input.len()`. -/
def eof (input : List Char) (pos : Nat) : Bool :=
  byteLen input ≤ pos

/-- `Parser::next_char`: `self.input[self.pos..].chars().next().unwrap()`. -/
def next_char (input : List Char) (pos : Nat) : Except Err Char :=
  match drop_bytes input pos with
  | none => .error .invalidPos
  | some [] => .error .unexpectedEndOfInput
  | some (c :: _) => .ok c

/-- `Parser::starts_with`: `self.input[self.pos..].starts_with(s)`. -/
def starts_with (input : List Char) (pos : Nat) (s : List Char) : Except Err Bool :=
  match drop_bytes input pos with
  | none => .error .invalidPos
  | some rest => .ok (s.isPrefixOf rest)

/-- `Parser::consume_char`: reads the character at `pos` and advances `pos`
by the byte offset of the *second* character of the slice, with
`unwrap_or((1, ' '))` substituting `1` when the slice holds a single
character.  (This faithfully reproduces the source, including its behaviour
on a final multi-byte character, where the offset `1` is wrong.) -/
def consume_char (input : List Char) (pos : Nat) : Except Err (Char × Nat) :=
  match drop_bytes input pos with
  | none => .error .invalidPos
  | some [] => .error .unexpectedEndOfInput
  | some (c :: rest) =>
    .ok (c, pos + (match rest with | [] => 1 | _ :: _ => c.utf8Size))

/-- `Parser::consume_until`: push `consume_char()` while not `eof` and the
filter accepts `next_char()`.  Fuelled; callers pass `cuFuel`. -/
def consume_until (fuel : Nat) (input : List Char) (filt : Char → Bool) (pos : Nat) :
    Except Err (List Char × Nat) :=
  match fuel with
  | 0 => .error .outOfFuel
  | f + 1 =>
    if eof input pos then .ok ([], pos)
    else
      match next_char input pos with
      | .error e => .error e
      | .ok c =>
        if filt c then
          match consume_char input pos with
          | .error e => .error e
          | .ok (c2, p1) =>
            match consume_until f input filt p1 with
            | .error e => .error e
            | .ok (s, p2) => .ok (c2 :: s, p2)
        else .ok ([], pos)

/-- Fuel for `consume_until` and the flat parser loops: one unit per input
character plus one, enough since every iteration consumes a character. -/
def cuFuel (input : List Char) : Nat :=
  input.length + 1

/-- `Parser::consume_whitespace`: `consume_until(char::is_whitespace)`,
discarding the consumed characters. -/
def consume_whitespace (input : List Char) (pos : Nat) : Except Err Nat :=
  match consume_until (cuFuel input) input Char.isWhitespace pos with
  | .error e => .error e
  | .ok (_, p) => .ok p

/-! ## Document model (`src/dom.rs`)

In the source a `Node` is a struct of a `children` vector and a `NodeType`
(`Text` or `Element`), where the `Node::text` constructor always sets
`children` to the empty vector; the two factory functions `Node::text` and
`Node::element` are the only producers.  The embedding fuses struct and tag
into one inductive with the same two shapes.  `AttrMap` is a `HashMap` from
attribute name to value (keys unique, insertion order irrelevant); it is
embedded as an association list whose `attr_insert` replaces the value of an
existing key in place, exactly the observable behaviour of
`HashMap::insert`. -/

abbrev AttrMap := List (List Char × List Char)

/-- `HashMap::insert`: overwrite the value at an existing key, otherwise add
the binding. -/
def attr_insert (key value : List Char) : AttrMap → AttrMap
  | [] => [(key, value)]
  | (k, v) :: rest =>
    if k = key then (key, value) :: rest else (k, v) :: attr_insert key value rest

/-- `HashMap::get`: the value bound to `key`, if any. -/
def attr_lookup : AttrMap → List Char → Option (List Char)
  | [], _ => none
  | (k, v) :: rest, key => if k = key then some v else attr_lookup rest key

/-- Document node (`dom::Node`). -/
inductive Node where
  | text (content : List Char)
  | element (tag_name : List Char) (attributes : AttrMap) (children : List Node)

namespace Html

/-- `Parser::parse_tag_name`: consume while ASCII alphanumeric. -/
def isTagNameChar (c : Char) : Bool :=
  (decide ('a' ≤ c) && decide (c ≤ 'z')) ||
  (decide ('A' ≤ c) && decide (c ≤ 'Z')) ||
  (decide ('0' ≤ c) && decide (c ≤ '9'))

/-- `Parser::parse_tag_name`. -/
def parse_tag_name (input : List Char) (pos : Nat) : Except Err (List Char × Nat) :=
  consume_until (cuFuel input) input isTagNameChar pos

/-- `Parser::parse_text`: a `Text` node of everything up to the next `<`. -/
def parse_text (input : List Char) (pos : Nat) : Except Err (Node × Nat) :=
  match consume_until (cuFuel input) input (fun c => c != '<') pos with
  | .error e => .error e
  | .ok (s, p) => .ok (Node.text s, p)

/-- `Parser::parse_attr_value`: opening quote, characters up to the matching
quote, closing quote.  The failed opening-quote `assert!` is `malformedTag`;
the failed closing-quote `assert!` is `unterminatedAttributeValue`. -/
def parse_attr_value (input : List Char) (pos : Nat) : Except Err (List Char × Nat) :=
  match consume_char input pos with
  | .error e => .error e
  | .ok (q, p1) =>
    if q = '"' ∨ q = '\'' then
      match consume_until (cuFuel input) input (fun c => c != q) p1 with
      | .error e => .error e
      | .ok (v, p2) =>
        match consume_char input p2 with
        | .error e => .error e
        | .ok (q2, p3) =>
          if q2 = q then .ok (v, p3) else .error .unterminatedAttributeValue
    else .error .malformedTag

/-- `Parser::parse_attr`: `name`, literal `=`, quoted value. -/
def parse_attr (input : List Char) (pos : Nat) :
    Except Err ((List Char × List Char) × Nat) :=
  match parse_tag_name input pos with
  | .error e => .error e
  | .ok (name, p1) =>
    match consume_char input p1 with
    | .error e => .error e
    | .ok (c, p2) =>
      if c = '=' then
        match parse_attr_value input p2 with
        | .error e => .error e
        | .ok (v, p3) => .ok ((name, v), p3)
      else .error .malformedTag

/-- Loop body of `Parser::parse_attributes`, with the accumulated map as an
explicit argument (the Rust local `attributes`). -/
def parse_attributes_loop : Nat → List Char → Nat → AttrMap → Except Err (AttrMap × Nat)
  | 0, _, _, _ => .error .outOfFuel
  | f + 1, input, pos, acc =>
    match consume_whitespace input pos with
    | .error e => .error e
    | .ok p1 =>
      match next_char input p1 with
      | .error e => .error e
      | .ok c =>
        if c = '>' then .ok (acc, p1)
        else
          match parse_attr input p1 with
          | .error e => .error e
          | .ok ((k, v), p2) => parse_attributes_loop f input p2 (attr_insert k v acc)

/-- `Parser::parse_attributes`. -/
def parse_attributes (input : List Char) (pos : Nat) : Except Err (AttrMap × Nat) :=
  parse_attributes_loop (cuFuel input) input pos []

/-- Specification-side counterpart of `parse_attributes` for the
last-write-wins refinement claim: the same loop, but recording the parsed
`name="value"` pairs in source order instead of inserting them into the map.
It is compared against `parse_attributes` in the corresponding theorem. -/
def attr_pairs_loop : Nat → List Char → Nat → Except Err (List (List Char × List Char) × Nat)
  | 0, _, _ => .error .outOfFuel
  | f + 1, input, pos =>
    match consume_whitespace input pos with
    | .error e => .error e
    | .ok p1 =>
      match next_char input p1 with
      | .error e => .error e
      | .ok c =>
        if c = '>' then .ok ([], p1)
        else
          match parse_attr input p1 with
          | .error e => .error e
          | .ok ((k, v), p2) =>
            match attr_pairs_loop f input p2 with
            | .error e => .error e
            | .ok (ps, p3) => .ok ((k, v) :: ps, p3)

/-- Specification-side: the attribute pairs in source order. -/
def attr_pairs (input : List Char) (pos : Nat) :
    Except Err (List (List Char × List Char) × Nat) :=
  attr_pairs_loop (cuFuel input) input pos

mutual

/-- `Parser::parse_nodes`: skip whitespace; stop at end of input or before a
closing tag; otherwise parse one node and continue. -/
def parse_nodes : Nat → List Char → Nat → Except Err (List Node × Nat)
  | 0, _, _ => .error .outOfFuel
  | f + 1, input, pos =>
    match consume_whitespace input pos with
    | .error e => .error e
    | .ok p1 =>
      if eof input p1 then .ok ([], p1)
      else
        match starts_with input p1 ['<', '/'] with
        | .error e => .error e
        | .ok true => .ok ([], p1)
        | .ok false =>
          match parse_node f input p1 with
          | .error e => .error e
          | .ok (n, p2) =>
            match parse_nodes f input p2 with
            | .error e => .error e
            | .ok (ns, p3) => .ok (n :: ns, p3)

/-- `Parser::parse_node`: `<` starts an element, anything else a text run. -/
def parse_node : Nat → List Char → Nat → Except Err (Node × Nat)
  | 0, _, _ => .error .outOfFuel
  | f + 1, input, pos =>
    match next_char input pos with
    | .error e => .error e
    | .ok c => if c = '<' then parse_element f input pos else parse_text input pos

/-- `Parser::parse_element`: `<`, tag name, attributes, `>`, children,
`</`, the same tag name, `>`.  Literal-character asserts fail with
`malformedTag`; the tag-name comparison fails with `tagMismatch`. -/
def parse_element : Nat → List Char → Nat → Except Err (Node × Nat)
  | 0, _, _ => .error .outOfFuel
  | f + 1, input, pos =>
    match consume_char input pos with
    | .error e => .error e
    | .ok (c1, p1) =>
      if c1 = '<' then
        match parse_tag_name input p1 with
        | .error e => .error e
        | .ok (tag, p2) =>
          match parse_attributes input p2 with
          | .error e => .error e
          | .ok (attrs, p3) =>
            match consume_char input p3 with
            | .error e => .error e
            | .ok (c2, p4) =>
              if c2 = '>' then
                match parse_nodes f input p4 with
                | .error e => .error e
                | .ok (children, p5) =>
                  match consume_char input p5 with
                  | .error e => .error e
                  | .ok (c3, p6) =>
                    if c3 = '<' then
                      match consume_char input p6 with
                      | .error e => .error e
                      | .ok (c4, p7) =>
                        if c4 = '/' then
                          match parse_tag_name input p7 with
                          | .error e => .error e
                          | .ok (tag2, p8) =>
                            if tag2 = tag then
                              match consume_char input p8 with
                              | .error e => .error e
                              | .ok (c5, p9) =>
                                if c5 = '>' then
                                  .ok (Node.element tag attrs children, p9)
                                else .error .malformedTag
                            else .error .tagMismatch
                        else .error .malformedTag
                    else .error .malformedTag
              else .error .malformedTag
      else .error .malformedTag

end

/-- Fuel for the HTML entry point: every `parse_node` step consumes at least
one byte, and each nesting level costs at most three fuel units. -/
def htmlFuel (input : List Char) : Nat :=
  3 * byteLen input + 3

/-- `html::parse` (the entry point): parse the top-level sibling nodes; a
singleton result is returned directly (`swap_remove(0)`), anything else is
wrapped in a synthesized `html` element with an empty attribute map. -/
def parse (input : List Char) : Except Err Node :=
  match parse_nodes (htmlFuel input) input 0 with
  | .error e => .error e
  | .ok ([n], _) => .ok n
  | .ok (ns, _) => .ok (Node.element ("html".toList) [] ns)

end Html

namespace Css

/-! ## Style model and CSS parser (`src/css.rs`)

The data model and the implemented productions (`specificity`,
`parse_selectors`, `parse_simple_selector`, `parse_declaration`,
`parse_declarations`) are embedded from the source.  The productions left as
`todo!()` in the source (`valid_identifier_char`, `parse_identifier`,
`parse_value`) are modelled from the design document, as marked on each. -/

/-- `css::Unit` (source name `Unit`, renamed to avoid the Lean builtin). -/
inductive CssUnit where
  | px
deriving DecidableEq

/-- `css::Color`; the fields are `u8` in the source, embedded as `Nat`
(the parser only ever produces values below 256). -/
structure Color where
  r : Nat
  g : Nat
  b : Nat
  a : Nat
deriving DecidableEq

/-- `css::Value`.  The `f32` magnitude of `Length` is modelled as `ℚ` (the
exact value of the decimal literal). -/
inductive Value where
  | keyword (s : List Char)
  | length (n : ℚ) (u : CssUnit)
  | colorValue (c : Color)
deriving DecidableEq

/-- `css::SimpleSelector` (the `class` field is renamed `classes`: `class`
is a Lean keyword). -/
structure SimpleSelector where
  tag_name : Option (List Char)
  id : Option (List Char)
  classes : List (List Char)
deriving DecidableEq

/-- `css::Selector`. -/
inductive Selector where
  | simple (s : SimpleSelector)
deriving DecidableEq

/-- `css::Specificity = (usize, usize, usize)`. -/
abbrev Specificity := Nat × Nat × Nat

/-- `Option::iter().count()`: `1` when present, `0` when absent. -/
def optCount : Option (List Char) → Nat
  | none => 0
  | some _ => 1

/-- `Selector::specificity`: `(id.iter().count(), class.len(),
tag_name.iter().count())`, derived on demand from the fields. -/
def Selector.specificity : Selector → Specificity
  | .simple s => (optCount s.id, s.classes.length, optCount s.tag_name)

/-- `css::Declaration`. -/
structure Declaration where
  name : List Char
  value : Value
deriving DecidableEq

/-- Lexicographic `≤` on specificity triples, the order `Ord::cmp` gives a
Rust `(usize, usize, usize)`. -/
def specLe (x y : Specificity) : Bool :=
  decide (x.1 < y.1) ||
  (decide (x.1 = y.1) &&
    (decide (x.2.1 < y.2.1) || (decide (x.2.1 = y.2.1) && decide (x.2.2 ≤ y.2.2))))

/-- The comparator of `parse_selectors`' sort as a binary relation:
`selR a b` holds when `b.specificity().cmp(&a.specificity())` is not
`Greater`, i.e. when `a` may come before `b` in the descending order. -/
def selR (a b : Selector) : Prop :=
  specLe b.specificity a.specificity = true

instance : DecidableRel selR :=
  fun _ _ => inferInstanceAs (Decidable (_ = true))

/-- `selectors.sort_by(|a, b| b.specificity().cmp(&a.specificity()))`:
Rust's `sort_by` is a stable sort, and a stable sort by a total preorder has
a unique result, so it is embedded by insertion sort (which Mathlib proves
sorted, permuting and stable for `selR`). -/
def sortSelectors (l : List Selector) : List Selector :=
  List.insertionSort selR l

/-- Modelled from the spec: `valid_identifier_char` is `todo!()` in
`src/css.rs`; §4.4/§9 of the design fix the identifier alphabet as ASCII
letters, digits and hyphen. -/
def valid_identifier_char (c : Char) : Bool :=
  (decide ('a' ≤ c) && decide (c ≤ 'z')) ||
  (decide ('A' ≤ c) && decide (c ≤ 'Z')) ||
  (decide ('0' ≤ c) && decide (c ≤ '9')) ||
  c == '-'

/-- Modelled from the spec: `parse_identifier` is `todo!()` in `src/css.rs`;
§4.4 prescribes consuming identifier characters and raising
`EmptyIdentifier` on an empty result. -/
def parse_identifier (input : List Char) (pos : Nat) : Except Err (List Char × Nat) :=
  match consume_until (cuFuel input) input valid_identifier_char pos with
  | .error e => .error e
  | .ok ([], _) => .error .emptyIdentifier
  | .ok (s, p) => .ok (s, p)

/-- Loop body of `Parser::parse_simple_selector`, with the selector under
construction as an explicit argument (the Rust local `selector`). -/
def parse_simple_selector_loop :
    Nat → List Char → Nat → SimpleSelector → Except Err (SimpleSelector × Nat)
  | 0, _, _, _ => .error .outOfFuel
  | f + 1, input, pos, sel =>
    if eof input pos then .ok (sel, pos)
    else
      match next_char input pos with
      | .error e => .error e
      | .ok c =>
        if c = '#' then
          match consume_char input pos with
          | .error e => .error e
          | .ok (_, p1) =>
            match parse_identifier input p1 with
            | .error e => .error e
            | .ok (s, p2) => parse_simple_selector_loop f input p2 { sel with id := some s }
        else if c = '.' then
          match consume_char input pos with
          | .error e => .error e
          | .ok (_, p1) =>
            match parse_identifier input p1 with
            | .error e => .error e
            | .ok (s, p2) =>
              parse_simple_selector_loop f input p2 { sel with classes := sel.classes ++ [s] }
        else if c = '*' then
          match consume_char input pos with
          | .error e => .error e
          | .ok (_, p1) => parse_simple_selector_loop f input p1 sel
        else if valid_identifier_char c then
          match parse_identifier input pos with
          | .error e => .error e
          | .ok (s, p1) => parse_simple_selector_loop f input p1 { sel with tag_name := some s }
        else .ok (sel, pos)

/-- `Parser::parse_simple_selector`. -/
def parse_simple_selector (input : List Char) (pos : Nat) :
    Except Err (SimpleSelector × Nat) :=
  parse_simple_selector_loop (cuFuel input) input pos ⟨none, none, []⟩

/-- Loop body of `Parser::parse_selectors`, with the collected selectors as
an explicit argument (the Rust local `selectors`), *before* the final sort.
The `panic!` on any character other than `,` or `{` is
`unexpectedCharacterInSelectorList`. -/
def parse_selectors_loop :
    Nat → List Char → Nat → List Selector → Except Err (List Selector × Nat)
  | 0, _, _, _ => .error .outOfFuel
  | f + 1, input, pos, acc =>
    match parse_simple_selector input pos with
    | .error e => .error e
    | .ok (s, p1) =>
      match consume_whitespace input p1 with
      | .error e => .error e
      | .ok p2 =>
        match next_char input p2 with
        | .error e => .error e
        | .ok c =>
          if c = ',' then
            match consume_char input p2 with
            | .error e => .error e
            | .ok (_, p3) =>
              match consume_whitespace input p3 with
              | .error e => .error e
              | .ok p4 => parse_selectors_loop f input p4 (acc ++ [Selector.simple s])
          else if c = '{' then .ok (acc ++ [Selector.simple s], p2)
          else .error .unexpectedCharacterInSelectorList

/-- `Parser::parse_selectors`: collect the comma-separated simple selectors,
then sort them with highest specificity first. -/
def parse_selectors (input : List Char) (pos : Nat) : Except Err (List Selector × Nat) :=
  match parse_selectors_loop (cuFuel input) input pos [] with
  | .error e => .error e
  | .ok (l, p) => .ok (sortSelectors l, p)

/-- Modelled from the spec: decimal digit accumulation for the number and
color grammars of §4.4. -/
def digitsToNat (s : List Char) : Nat :=
  s.foldl (fun n c => 10 * n + (c.toNat - '0'.toNat)) 0

/-- Modelled from the spec: hexadecimal digit test for the color grammar. -/
def isHexChar (c : Char) : Bool :=
  (decide ('0' ≤ c) && decide (c ≤ '9')) ||
  (decide ('a' ≤ c) && decide (c ≤ 'f')) ||
  (decide ('A' ≤ c) && decide (c ≤ 'F'))

/-- Modelled from the spec: value of one hexadecimal digit. -/
def hexVal (c : Char) : Nat :=
  if decide ('0' ≤ c) && decide (c ≤ '9') then c.toNat - '0'.toNat
  else if decide ('a' ≤ c) && decide (c ≤ 'f') then c.toNat - 'a'.toNat + 10
  else c.toNat - 'A'.toNat + 10

/-- Modelled from the spec: read exactly `k` hexadecimal digits into an
accumulator, failing with `InvalidColorLiteral` when a digit is missing or
invalid (§4.4). -/
def readHex : Nat → List Char → Nat → Nat → Except Err (Nat × Nat)
  | 0, _, pos, acc => .ok (acc, pos)
  | k + 1, input, pos, acc =>
    match consume_char input pos with
    | .error _ => .error .invalidColorLiteral
    | .ok (c, p1) =>
      if isHexChar c then readHex k input p1 (16 * acc + hexVal c)
      else .error .invalidColorLiteral

/-- Modelled from the spec: the exact rational denoted by a decimal literal
(integer part, fractional part, optional leading minus sign); stands in for
the `f32` of the source. -/
def decimalToRat (neg : Bool) (ip fp : List Char) : ℚ :=
  let mag : ℚ :=
    if fp = [] then (digitsToNat ip : ℚ)
    else (digitsToNat ip : ℚ) + (digitsToNat fp : ℚ) / (10 : ℚ) ^ fp.length
  if neg then -mag else mag

/-- Modelled from the spec: after the numeric magnitude, the unit keyword —
`px` is the only recognized unit, anything else (including nothing) is a
fatal `UnknownUnit` (§4.4). -/
def parseUnitAfter (input : List Char) (q : ℚ) (pos : Nat) : Except Err (Value × Nat) :=
  match consume_until (cuFuel input) input valid_identifier_char pos with
  | .error e => .error e
  | .ok (u, p) =>
    if u = "px".toList then .ok (.length q CssUnit.px, p) else .error .unknownUnit

/-- Modelled from the spec: a `Length` literal — optional sign, digits, an
optional single `.` followed by digits, then the unit keyword (§4.4). -/
def parseLength (input : List Char) (pos : Nat) : Except Err (Value × Nat) :=
  match next_char input pos with
  | .error e => .error e
  | .ok c0 =>
    let signRes : Except Err (Bool × Nat) :=
      if c0 = '-' ∨ c0 = '+' then
        match consume_char input pos with
        | .error e => .error e
        | .ok (_, p) => .ok (c0 = '-', p)
      else .ok (false, pos)
    match signRes with
    | .error e => .error e
    | .ok (neg, p0) =>
      match consume_until (cuFuel input) input Char.isDigit p0 with
      | .error e => .error e
      | .ok (ip, p1) =>
        let hasFrac : Bool := match next_char input p1 with
          | .ok c => c == '.'
          | .error _ => false
        if hasFrac then
          match consume_char input p1 with
          | .error e => .error e
          | .ok (_, p2) =>
            match consume_until (cuFuel input) input Char.isDigit p2 with
            | .error e => .error e
            | .ok (fp, p3) => parseUnitAfter input (decimalToRat neg ip fp) p3
        else parseUnitAfter input (decimalToRat neg ip []) p1

/-- Modelled from the spec: `parse_value` is `todo!()` in `src/css.rs`; §4.4
dispatches on the lookahead — a digit or sign starts a `Length`, `#` starts
a six-hex-digit `Color` with alpha fixed at 255, anything else is an
identifier wrapped as `Keyword`. -/
def parse_value (input : List Char) (pos : Nat) : Except Err (Value × Nat) :=
  match next_char input pos with
  | .error e => .error e
  | .ok c =>
    if c = '#' then
      match consume_char input pos with
      | .error e => .error e
      | .ok (_, p1) =>
        match readHex 2 input p1 0 with
        | .error e => .error e
        | .ok (r, p2) =>
          match readHex 2 input p2 0 with
          | .error e => .error e
          | .ok (g, p3) =>
            match readHex 2 input p3 0 with
            | .error e => .error e
            | .ok (b, p4) => .ok (.colorValue ⟨r, g, b, 255⟩, p4)
    else if c.isDigit ∨ c = '-' ∨ c = '+' then parseLength input pos
    else
      match parse_identifier input pos with
      | .error e => .error e
      | .ok (s, p1) => .ok (.keyword s, p1)

/-- `Parser::parse_declaration`: identifier, whitespace, `:`, whitespace,
value, whitespace, `;`.  The `assert_eq!` sites are `cssAssert`. -/
def parse_declaration (input : List Char) (pos : Nat) : Except Err (Declaration × Nat) :=
  match parse_identifier input pos with
  | .error e => .error e
  | .ok (name, p1) =>
    match consume_whitespace input p1 with
    | .error e => .error e
    | .ok p2 =>
      match consume_char input p2 with
      | .error e => .error e
      | .ok (c, p3) =>
        if c = ':' then
          match consume_whitespace input p3 with
          | .error e => .error e
          | .ok p4 =>
            match parse_value input p4 with
            | .error e => .error e
            | .ok (v, p5) =>
              match consume_whitespace input p5 with
              | .error e => .error e
              | .ok p6 =>
                match consume_char input p6 with
                | .error e => .error e
                | .ok (c2, p7) =>
                  if c2 = ';' then .ok (⟨name, v⟩, p7) else .error .cssAssert
        else .error .cssAssert

end Css

/-! ## Verification-side definitions -/

/-- Fold a list of attribute pairs into a map by repeated `attr_insert`, the
operation the `parse_attributes` loop performs. -/
def insertAll (acc : AttrMap) (ps : List (List Char × List Char)) : AttrMap :=
  ps.foldl (fun m kv => attr_insert kv.1 kv.2 m) acc

/-- The value of the *last* pair carrying `key` in a pair list (source
order), if any: the specification-side meaning of "last write wins". -/
def lastVal : List (List Char × List Char) → List Char → Option (List Char)
  | [], _ => none
  | (k, v) :: rest, key =>
    match lastVal rest key with
    | some w => some w
    | none => if k = key then some v else none

mutual

/-- Every `Text` node in the tree is non-empty and starts with a
non-whitespace character. -/
def textOk : Node → Bool
  | .text s =>
    match s with
    | [] => false
    | c :: _ => !c.isWhitespace
  | .element _ _ cs => textOkList cs

/-- `textOk` on every node of a list. -/
def textOkList : List Node → Bool
  | [] => true
  | n :: ns => textOk n && textOkList ns

end

/-! ## Cursor lemmas -/

theorem byteLen_eq_zero {s : List Char} (h : byteLen s = 0) : s = [] := by
  cases s with
  | nil => rfl
  | cons c cs =>
    have := Char.utf8Size_pos c
    simp [byteLen] at h
    omega

theorem drop_bytes_byteLen :
    ∀ (input : List Char) (pos : Nat) (s : List Char),
      drop_bytes input pos = some s → byteLen input = pos + byteLen s := by
  intro input
  induction input with
  | nil =>
    intro pos s h
    cases pos with
    | zero =>
      simp [drop_bytes] at h
      subst h
      simp [byteLen]
    | succ m => simp [drop_bytes] at h
  | cons c cs ih =>
    intro pos s h
    cases pos with
    | zero =>
      simp [drop_bytes] at h
      subst h
      simp
    | succ m =>
      rw [drop_bytes] at h
      split at h
      · have h2 := ih _ _ h
        simp only [byteLen]
        omega
      · exact absurd h (by simp)

theorem drop_bytes_advance :
    ∀ (input : List Char) (pos : Nat) (c : Char) (rest : List Char),
      drop_bytes input pos = some (c :: rest) →
      drop_bytes input (pos + c.utf8Size) = some rest := by
  intro input
  induction input with
  | nil =>
    intro pos c rest h
    cases pos with
    | zero => simp [drop_bytes] at h
    | succ m => simp [drop_bytes] at h
  | cons d tl ih =>
    intro pos c rest h
    cases pos with
    | zero =>
      simp [drop_bytes] at h
      obtain ⟨rfl, rfl⟩ := h
      have hsz := Char.utf8Size_pos d
      obtain ⟨k, hk⟩ : ∃ k, d.utf8Size = k + 1 := ⟨d.utf8Size - 1, by omega⟩
      rw [Nat.zero_add, hk, drop_bytes]
      simp [hk, drop_bytes]
    | succ m =>
      rw [drop_bytes] at h
      split at h
      · rename_i hle
        have h2 := ih _ _ _ h
        have hgoal : m + 1 + c.utf8Size - d.utf8Size = m + 1 - d.utf8Size + c.utf8Size := by
          omega
        have : m + 1 + c.utf8Size = (m + c.utf8Size) + 1 := by omega
        rw [this, drop_bytes]
        split
        · rw [show m + c.utf8Size + 1 - d.utf8Size = m + 1 - d.utf8Size + c.utf8Size by omega]
          exact h2
        · omega
      · exact absurd h (by simp)

theorem drop_bytes_inside :
    ∀ (input : List Char) (pos : Nat) (c : Char) (rest : List Char) (d : Nat),
      drop_bytes input pos = some (c :: rest) → 0 < d → d < c.utf8Size →
      drop_bytes input (pos + d) = none := by
  intro input
  induction input with
  | nil =>
    intro pos c rest d h
    cases pos with
    | zero => simp [drop_bytes] at h
    | succ m => simp [drop_bytes] at h
  | cons e tl ih =>
    intro pos c rest d h hd hlt
    cases pos with
    | zero =>
      simp [drop_bytes] at h
      obtain ⟨rfl, rfl⟩ := h
      obtain ⟨k, hk⟩ : ∃ k, d = k + 1 := ⟨d - 1, by omega⟩
      subst hk
      rw [Nat.zero_add, drop_bytes]
      split
      · omega
      · rfl
    | succ m =>
      rw [drop_bytes] at h
      split at h
      · rename_i hle
        have h2 := ih _ _ _ d h hd hlt
        have : m + 1 + d = (m + d) + 1 := by omega
        rw [this, drop_bytes]
        split
        · rw [show m + d + 1 - e.utf8Size = m + 1 - e.utf8Size + d by omega]
          exact h2
        · rfl
      · exact absurd h (by simp)

theorem consume_char_ok {input : List Char} {pos : Nat} {c : Char} {p' : Nat}
    (h : consume_char input pos = .ok (c, p')) :
    ∃ rest, drop_bytes input pos = some (c :: rest) ∧
      ((rest = [] ∧ p' = pos + 1) ∨ (rest ≠ [] ∧ p' = pos + c.utf8Size)) := by
  unfold consume_char at h
  cases hdb : drop_bytes input pos with
  | none => rw [hdb] at h; cases h
  | some s =>
    rw [hdb] at h
    cases s with
    | nil => cases h
    | cons c0 rest =>
      cases rest with
      | nil =>
        simp at h
        obtain ⟨rfl, rfl⟩ := h
        exact ⟨[], rfl, Or.inl ⟨rfl, rfl⟩⟩
      | cons d tl =>
        simp at h
        obtain ⟨rfl, rfl⟩ := h
        exact ⟨d :: tl, rfl, Or.inr ⟨by simp, rfl⟩⟩

theorem next_char_ok {input : List Char} {pos : Nat} {c : Char}
    (h : next_char input pos = .ok c) :
    ∃ rest, drop_bytes input pos = some (c :: rest) := by
  unfold next_char at h
  cases hdb : drop_bytes input pos with
  | none => rw [hdb] at h; cases h
  | some s =>
    rw [hdb] at h
    cases s with
    | nil => cases h
    | cons c0 rest =>
      simp at h
      subst h
      exact ⟨rest, rfl⟩

theorem consume_char_next_char {input : List Char} {pos : Nat} {c : Char} {p' : Nat}
    (h : consume_char input pos = .ok (c, p')) : next_char input pos = .ok c := by
  obtain ⟨rest, hdb, _⟩ := consume_char_ok h
  simp [next_char, hdb]

theorem next_char_consume_char {input : List Char} {pos : Nat} {c : Char}
    (h : next_char input pos = .ok c) :
    ∃ p', consume_char input pos = .ok (c, p') := by
  obtain ⟨rest, hdb⟩ := next_char_ok h
  cases rest with
  | nil => exact ⟨pos + 1, by simp [consume_char, hdb]⟩
  | cons d tl => exact ⟨pos + c.utf8Size, by simp [consume_char, hdb]⟩

theorem eof_false_of_drop_bytes_cons {input : List Char} {pos : Nat} {c : Char}
    {rest : List Char} (h : drop_bytes input pos = some (c :: rest)) :
    eof input pos = false := by
  have h2 := drop_bytes_byteLen _ _ _ h
  have := Char.utf8Size_pos c
  simp only [byteLen] at h2
  simp [eof]
  omega


theorem consume_until_stop :
    ∀ (f : Nat) {input : List Char} {filt : Char → Bool} {pos : Nat} {s : List Char} {p' : Nat},
      consume_until f input filt pos = .ok (s, p') →
      eof input p' = true ∨ ∃ c, next_char input p' = .ok c ∧ filt c = false := by
  intro f
  induction f with
  | zero =>
    intro input filt pos s p' h
    simp [consume_until] at h
  | succ f ih =>
    intro input filt pos s p' h
    rw [consume_until] at h
    split at h
    · rename_i heof
      simp at h
      obtain ⟨rfl, rfl⟩ := h
      exact Or.inl heof
    · cases hnc : next_char input pos with
      | error e => rw [hnc] at h; cases h
      | ok c =>
        rw [hnc] at h
        simp only at h
        cases hf : filt c with
        | false =>
          rw [hf] at h
          simp at h
          obtain ⟨rfl, rfl⟩ := h
          exact Or.inr ⟨c, hnc, hf⟩
        | true =>
          rw [hf] at h
          simp only [if_true] at h
          cases hcc : consume_char input pos with
          | error e => rw [hcc] at h; cases h
          | ok r =>
            obtain ⟨c2, p1⟩ := r
            rw [hcc] at h
            simp only at h
            cases hcu : consume_until f input filt p1 with
            | error e => rw [hcu] at h; cases h
            | ok r2 =>
              obtain ⟨s2, p2⟩ := r2
              rw [hcu] at h
              simp at h
              obtain ⟨-, rfl⟩ := h
              exact ih hcu

theorem consume_until_head :
    ∀ (f : Nat) {input : List Char} {filt : Char → Bool} {pos : Nat} {s : List Char}
      {p' : Nat} {c : Char},
      consume_until f input filt pos = .ok (s, p') →
      next_char input pos = .ok c → filt c = true → ∃ t, s = c :: t := by
  intro f
  cases f with
  | zero =>
    intro input filt pos s p' c h
    simp [consume_until] at h
  | succ f =>
    intro input filt pos s p' c h hnc hf
    obtain ⟨rest, hdb⟩ := next_char_ok hnc
    obtain ⟨p1, hcc⟩ := next_char_consume_char hnc
    rw [consume_until] at h
    rw [if_neg (by simp [eof_false_of_drop_bytes_cons hdb])] at h
    rw [hnc] at h
    simp only at h
    rw [hf] at h
    simp only [if_true] at h
    rw [hcc] at h
    simp only at h
    cases hcu : consume_until f input filt p1 with
    | error e => rw [hcu] at h; cases h
    | ok r2 =>
      obtain ⟨s2, p2⟩ := r2
      rw [hcu] at h
      simp at h
      exact ⟨s2, h.1.symm⟩

theorem consume_until_err :
    ∀ (f : Nat) {input : List Char} {filt : Char → Bool} {pos : Nat} {e : Err},
      consume_until f input filt pos = .error e →
      e = .outOfFuel ∨ e = .unexpectedEndOfInput ∨ e = .invalidPos := by
  intro f
  induction f with
  | zero =>
    intro input filt pos e h
    simp [consume_until] at h
    simp [h]
  | succ f ih =>
    intro input filt pos e h
    rw [consume_until] at h
    split at h
    · cases h
    · cases hnc : next_char input pos with
      | error e2 =>
        rw [hnc] at h
        simp only at h
        cases h
        unfold next_char at hnc
        cases hdb : drop_bytes input pos with
        | none => rw [hdb] at hnc; cases hnc; simp
        | some s =>
          rw [hdb] at hnc
          cases s with
          | nil => cases hnc; simp
          | cons c0 rest => cases hnc
      | ok c =>
        rw [hnc] at h
        simp only at h
        cases hf : filt c with
        | false => rw [hf] at h; simp at h
        | true =>
          rw [hf] at h
          simp only [if_true] at h
          cases hcc : consume_char input pos with
          | error e2 =>
            rw [hcc] at h
            simp only at h
            cases h
            unfold consume_char at hcc
            cases hdb : drop_bytes input pos with
            | none => rw [hdb] at hcc; cases hcc; simp
            | some s =>
              rw [hdb] at hcc
              cases s with
              | nil => cases hcc; simp
              | cons c0 rest => cases hcc
          | ok r =>
            obtain ⟨c2, p1⟩ := r
            rw [hcc] at h
            simp only at h
            cases hcu : consume_until f input filt p1 with
            | error e2 =>
              rw [hcu] at h
              simp only at h
              cases h
              exact ih hcu
            | ok r2 =>
              obtain ⟨s2, p2⟩ := r2
              rw [hcu] at h
              cases h

theorem consume_until_decomp :
    ∀ (f : Nat) {input : List Char} {filt : Char → Bool} {pos : Nat} {s : List Char}
      {p' : Nat} {suffix : List Char},
      consume_until f input filt pos = .ok (s, p') →
      drop_bytes input pos = some suffix →
      ∃ rest, suffix = s ++ rest ∧ drop_bytes input p' = some rest ∧
        ∀ c ∈ s, filt c = true := by
  intro f
  induction f with
  | zero =>
    intro input filt pos s p' suffix h
    simp [consume_until] at h
  | succ f ih =>
    intro input filt pos s p' suffix h hdb
    rw [consume_until] at h
    split at h
    · rename_i heof
      simp at h
      obtain ⟨rfl, rfl⟩ := h
      exact ⟨suffix, rfl, hdb, by simp⟩
    · rename_i heof
      cases hnc : next_char input pos with
      | error e => rw [hnc] at h; cases h
      | ok c =>
        rw [hnc] at h
        simp only at h
        obtain ⟨rest0, hdb0⟩ := next_char_ok hnc
        rw [hdb] at hdb0
        injection hdb0 with hdb0
        subst hdb0
        cases hf : filt c with
        | false =>
          rw [hf] at h
          simp at h
          obtain ⟨rfl, rfl⟩ := h
          exact ⟨c :: rest0, rfl, hdb, by simp⟩
        | true =>
          rw [hf] at h
          simp only [if_true] at h
          cases hcc : consume_char input pos with
          | error e => rw [hcc] at h; cases h
          | ok r =>
            obtain ⟨c2, p1⟩ := r
            rw [hcc] at h
            simp only at h
            obtain ⟨rest1, hdb1, hp⟩ := consume_char_ok hcc
            rw [hdb] at hdb1
            injection hdb1 with hdb1
            injection hdb1 with hc1 hr1
            subst hc1
            subst hr1
            cases hcu : consume_until f input filt p1 with
            | error e => rw [hcu] at h; cases h
            | ok r2 =>
              obtain ⟨s2, p2⟩ := r2
              rw [hcu] at h
              simp at h
              obtain ⟨rfl, rfl⟩ := h
              have hdbr : drop_bytes input p1 = some rest0 := by
                rcases hp with ⟨hnil, hp1⟩ | ⟨hne, hp1⟩
                · subst hnil
                  cases hsz : c.utf8Size with
                  | zero => exact absurd hsz (by have := Char.utf8Size_pos c; omega)
                  | succ k =>
                    cases k with
                    | zero =>
                      rw [hp1, show pos + 1 = pos + c.utf8Size by omega]
                      exact drop_bytes_advance _ _ _ _ hdb
                    | succ k2 =>
                      have hnone : drop_bytes input (pos + 1) = none :=
                        drop_bytes_inside _ _ _ _ 1 hdb (by omega) (by omega)
                      have hbl := drop_bytes_byteLen _ _ _ hdb
                      simp only [byteLen] at hbl
                      have heof2 : eof input (pos + 1) = false := by
                        simp [eof]
                        omega
                      rw [hp1] at hcu
                      cases f with
                      | zero => simp [consume_until] at hcu
                      | succ g =>
                        rw [consume_until] at hcu
                        rw [if_neg (by simp [heof2])] at hcu
                        rw [show next_char input (pos + 1) = .error .invalidPos by
                          simp [next_char, hnone]] at hcu
                        cases hcu
                · rw [hp1]
                  exact drop_bytes_advance _ _ _ _ hdb
              obtain ⟨rest2, hsfx, hdb2, hall⟩ := ih hcu hdbr
              refine ⟨rest2, by simp [hsfx], hdb2, ?_⟩
              intro x hx
              rcases List.mem_cons.mp hx with hx | hx
              · subst hx; exact hf
              · exact hall x hx


theorem consume_whitespace_ok {input : List Char} {pos p' : Nat}
    (h : consume_whitespace input pos = .ok p') :
    eof input p' = true ∨ ∃ c, next_char input p' = .ok c ∧ c.isWhitespace = false := by
  unfold consume_whitespace at h
  cases hcu : consume_until (cuFuel input) input Char.isWhitespace pos with
  | error e => rw [hcu] at h; cases h
  | ok r =>
    obtain ⟨s, p⟩ := r
    rw [hcu] at h
    simp at h
    subst h
    exact consume_until_stop _ hcu

/-! ## Attribute-map lemmas (last write wins) -/

theorem attr_lookup_attr_insert (k v : List Char) :
    ∀ (m : AttrMap) (key : List Char),
      attr_lookup (attr_insert k v m) key =
        if k = key then some v else attr_lookup m key := by
  intro m
  induction m with
  | nil =>
    intro key
    by_cases hk : k = key <;> simp [attr_insert, attr_lookup, hk]
  | cons kv rest ih =>
    intro key
    obtain ⟨k0, v0⟩ := kv
    by_cases h0 : k0 = k
    · subst h0
      by_cases hk : k0 = key <;> simp [attr_insert, attr_lookup, hk]
    · rw [attr_insert, if_neg h0, attr_lookup, ih]
      by_cases hk0 : k0 = key
      · subst hk0
        rw [if_pos rfl, if_neg (fun hc => h0 hc.symm), attr_lookup, if_pos rfl]
      · rw [if_neg hk0]
        by_cases hk : k = key
        · rw [if_pos hk, if_pos hk]
        · rw [if_neg hk, if_neg hk, attr_lookup, if_neg hk0]

theorem attr_insert_keys_subset (k v x : List Char) :
    ∀ (m : AttrMap), x ∈ (attr_insert k v m).map Prod.fst →
      x = k ∨ x ∈ m.map Prod.fst := by
  intro m
  induction m with
  | nil =>
    intro h
    simp [attr_insert] at h
    exact Or.inl h
  | cons kv rest ih =>
    obtain ⟨k0, v0⟩ := kv
    intro h
    by_cases h0 : k0 = k
    · subst h0
      simp [attr_insert] at h
      rcases h with h | h
      · exact Or.inl h
      · exact Or.inr (by simp [h])
    · rw [attr_insert, if_neg h0] at h
      rw [List.map_cons, List.mem_cons] at h
      rcases h with h | h
      · exact Or.inr (by simp [h])
      · rcases ih h with h2 | h2
        · exact Or.inl h2
        · exact Or.inr (by simp [h2])

theorem attr_insert_keys_nodup (k v : List Char) :
    ∀ (m : AttrMap), (m.map Prod.fst).Nodup →
      ((attr_insert k v m).map Prod.fst).Nodup := by
  intro m
  induction m with
  | nil =>
    intro _
    simp [attr_insert]
  | cons kv rest ih =>
    obtain ⟨k0, v0⟩ := kv
    intro hnd
    rw [List.map_cons, List.nodup_cons] at hnd
    obtain ⟨hk0, hrest⟩ := hnd
    by_cases h0 : k0 = k
    · subst h0
      have he : attr_insert k0 v ((k0, v0) :: rest) = (k0, v) :: rest := by
        rw [attr_insert, if_pos rfl]
      rw [he, List.map_cons, List.nodup_cons]
      exact ⟨hk0, hrest⟩
    · rw [attr_insert, if_neg h0]
      rw [List.map_cons, List.nodup_cons]
      constructor
      · intro hmem
        rcases attr_insert_keys_subset k v k0 rest hmem with h2 | h2
        · exact h0 h2
        · exact hk0 h2
      · exact ih hrest

theorem insertAll_lookup :
    ∀ (ps : List (List Char × List Char)) (acc : AttrMap) (key : List Char),
      attr_lookup (insertAll acc ps) key =
        match lastVal ps key with
        | some w => some w
        | none => attr_lookup acc key := by
  intro ps
  induction ps with
  | nil =>
    intro acc key
    simp [insertAll, lastVal]
  | cons kv tl ih =>
    intro acc key
    obtain ⟨k0, v0⟩ := kv
    rw [show insertAll acc ((k0, v0) :: tl) = insertAll (attr_insert k0 v0 acc) tl from rfl]
    rw [ih, lastVal]
    cases hlv : lastVal tl key with
    | some w => rfl
    | none => by_cases hk : k0 = key <;> simp [attr_lookup_attr_insert, hk]

theorem insertAll_keys_nodup :
    ∀ (ps : List (List Char × List Char)) (acc : AttrMap),
      (acc.map Prod.fst).Nodup → ((insertAll acc ps).map Prod.fst).Nodup := by
  intro ps
  induction ps with
  | nil =>
    intro acc h
    exact h
  | cons kv tl ih =>
    intro acc h
    exact ih _ (attr_insert_keys_nodup _ _ _ h)

theorem parse_attributes_loop_align :
    ∀ (f : Nat) {input : List Char} {pos : Nat} {ps : List (List Char × List Char)} {p : Nat},
      Html.attr_pairs_loop f input pos = .ok (ps, p) →
      ∀ acc, Html.parse_attributes_loop f input pos acc = .ok (insertAll acc ps, p) := by
  intro f
  induction f with
  | zero =>
    intro input pos ps p h
    simp [Html.attr_pairs_loop] at h
  | succ f ih =>
    intro input pos ps p h acc
    rw [Html.attr_pairs_loop] at h
    rw [Html.parse_attributes_loop]
    split at h
    · cases h
    · rename_i p1 hw
      split at h
      · cases h
      · rename_i c hnc
        split at h
        · rename_i hc
          try rw [if_pos hc]
          simp at h
          obtain ⟨rfl, rfl⟩ := h
          rfl
        · rename_i hc
          try rw [if_neg hc]
          split at h
          · cases h
          · rename_i k v p2 hpa
            split at h
            · cases h
            · rename_i ps2 p3 hrec
              simp at h
              obtain ⟨rfl, rfl⟩ := h
              exact ih hrec _

theorem parse_attributes_loop_stops :
    ∀ (f : Nat) {input : List Char} {pos : Nat} {acc m : AttrMap} {p : Nat},
      Html.parse_attributes_loop f input pos acc = .ok (m, p) →
      next_char input p = .ok '>' := by
  intro f
  induction f with
  | zero =>
    intro input pos acc m p h
    simp [Html.parse_attributes_loop] at h
  | succ f ih =>
    intro input pos acc m p h
    rw [Html.parse_attributes_loop] at h
    split at h
    · cases h
    · rename_i p1 hw
      split at h
      · cases h
      · rename_i c hnc
        split at h
        · rename_i hc
          simp at h
          obtain ⟨-, rfl⟩ := h
          rw [hnc, hc]
        · split at h
          · cases h
          · rename_i k v p2 hpa
            exact ih h


/-! ## Text nodes never start with whitespace -/

theorem html_textOk :
    ∀ (f : Nat) (input : List Char),
      (∀ pos ns p, Html.parse_nodes f input pos = .ok (ns, p) → textOkList ns = true) ∧
      (∀ pos n p, eof input pos = false →
        (∀ c, next_char input pos = .ok c → c.isWhitespace = false) →
        Html.parse_node f input pos = .ok (n, p) → textOk n = true) ∧
      (∀ pos n p, Html.parse_element f input pos = .ok (n, p) → textOk n = true) := by
  intro f
  induction f with
  | zero =>
    intro input
    refine ⟨?_, ?_, ?_⟩
    · intro pos ns p h
      simp [Html.parse_nodes] at h
    · intro pos n p _ _ h
      simp [Html.parse_node] at h
    · intro pos n p h
      simp [Html.parse_element] at h
  | succ f ih =>
    intro input
    obtain ⟨ihNodes, ihNode, ihElem⟩ := ih input
    refine ⟨?_, ?_, ?_⟩
    · intro pos ns p h
      rw [Html.parse_nodes] at h
      split at h
      · cases h
      · rename_i p1 hw
        split at h
        · rename_i heof
          simp at h
          obtain ⟨rfl, rfl⟩ := h
          rfl
        · rename_i heof
          split at h
          · cases h
          · rename_i hsw
            simp at h
            obtain ⟨rfl, rfl⟩ := h
            rfl
          · rename_i hsw
            split at h
            · cases h
            · rename_i n1 p2 hpn
              split at h
              · cases h
              · rename_i ns2 p3 hpns
                simp at h
                obtain ⟨rfl, rfl⟩ := h
                have heof2 : eof input p1 = false := by simpa using heof
                have hok1 : textOk n1 = true := by
                  apply ihNode p1 n1 p2 heof2 ?_ hpn
                  intro c hc
                  rcases consume_whitespace_ok hw with he | ⟨c2, hc2, hws2⟩
                  · rw [he] at heof2; cases heof2
                  · rw [hc2] at hc
                    injection hc with hc
                    subst hc
                    exact hws2
                have hok2 : textOkList ns2 = true := ihNodes p2 ns2 p3 hpns
                show (textOk n1 && textOkList ns2) = true
                rw [hok1, hok2]
                rfl
    · intro pos n p heof hws h
      rw [Html.parse_node] at h
      split at h
      · cases h
      · rename_i c hnc
        split at h
        · exact ihElem pos n p h
        · rename_i hc
          rw [Html.parse_text] at h
          split at h
          · cases h
          · rename_i s p2 hcu
            simp at h
            obtain ⟨rfl, rfl⟩ := h
            obtain ⟨t, rfl⟩ := consume_until_head _ hcu hnc (by simp [hc])
            have hcws := hws c hnc
            simp [textOk, hcws]
    · intro pos n p h
      rw [Html.parse_element] at h
      split at h
      · cases h
      · rename_i c1 p1 hcc
        split at h
        · rename_i hc1
          split at h
          · cases h
          · rename_i tag p2 htn
            split at h
            · cases h
            · rename_i attrs p3 hpa
              split at h
              · cases h
              · rename_i c2 p4 hcc2
                split at h
                · rename_i hc2
                  split at h
                  · cases h
                  · rename_i children p5 hpn
                    split at h
                    · cases h
                    · rename_i c3 p6 hcc3
                      split at h
                      · rename_i hc3
                        split at h
                        · cases h
                        · rename_i c4 p7 hcc4
                          split at h
                          · rename_i hc4
                            split at h
                            · cases h
                            · rename_i tag2 p8 htn2
                              split at h
                              · rename_i htageq
                                split at h
                                · cases h
                                · rename_i c5 p9 hcc5
                                  split at h
                                  · rename_i hc5
                                    simp at h
                                    obtain ⟨rfl, rfl⟩ := h
                                    simp only [textOk]
                                    exact ihNodes p4 children p5 hpn
                                  · cases h
                              · cases h
                          · cases h
                      · cases h
                · cases h
        · cases h


/-! ## Specificity order lemmas -/

theorem specLe_refl (x : Css.Specificity) : Css.specLe x x = true := by
  simp [Css.specLe]

theorem specLe_total (x y : Css.Specificity) :
    (Css.specLe x y || Css.specLe y x) = true := by
  simp [Css.specLe]
  omega

theorem specLe_trans {x y z : Css.Specificity}
    (h1 : Css.specLe x y = true) (h2 : Css.specLe y z = true) :
    Css.specLe x z = true := by
  simp [Css.specLe] at h1 h2 ⊢
  omega

instance : IsTotal Css.Selector Css.selR where
  total a b := by
    have h := specLe_total (Css.Selector.specificity b) (Css.Selector.specificity a)
    rw [Bool.or_eq_true] at h
    exact h

instance : IsTrans Css.Selector Css.selR where
  trans _ _ _ hab hbc := specLe_trans hbc hab

theorem selR_of_spec_eq {a b : Css.Selector}
    (h : a.specificity = b.specificity) : Css.selR a b := by
  show Css.specLe b.specificity a.specificity = true
  rw [h]
  exact specLe_refl _

/-! ## Claim theorems -/

/-- C2: for every selector list accepted by `parse_selectors`, the returned
list is the collected (source-order) selector list sorted by descending
specificity: it is a permutation of the collected list, pairwise ordered by
the comparator (`selR a b` ⟺ `b`'s specificity ≤ `a`'s), and the sort is
stable — any two selectors with equal specificity triples keep their
relative input order. -/
theorem C2_parse_selectors_sorted_stable :
    ∀ (input : List Char) (pos : Nat) (l : List Css.Selector) (p : Nat),
      Css.parse_selectors_loop (cuFuel input) input pos [] = .ok (l, p) →
      Css.parse_selectors input pos = .ok (Css.sortSelectors l, p) ∧
      (Css.sortSelectors l).Perm l ∧
      (Css.sortSelectors l).Pairwise Css.selR ∧
      (∀ a b : Css.Selector, a.specificity = b.specificity →
        [a, b].Sublist l → [a, b].Sublist (Css.sortSelectors l)) := by
  intro input pos l p h
  refine ⟨?_, ?_, ?_, ?_⟩
  · unfold Css.parse_selectors
    rw [h]
  · exact List.perm_insertionSort Css.selR l
  · exact List.sorted_insertionSort Css.selR l
  · intro a b hspec hsub
    exact List.pair_sublist_insertionSort (selR_of_spec_eq hspec) hsub

/-- C2 witness: on `div.note, .note, #x, * {` the loop collects the four
selectors in source order and `parse_selectors` returns them sorted
`#x`, `div.note`, `.note`, `*`. -/
theorem C2_parse_selectors_sorted_stable_witness :
    Css.parse_selectors ("div.note, .note, #x, * \x7b".toList) 0 =
      .ok ([Css.Selector.simple ⟨none, some ("x".toList), []⟩,
            Css.Selector.simple ⟨some ("div".toList), none, ["note".toList]⟩,
            Css.Selector.simple ⟨none, none, ["note".toList]⟩,
            Css.Selector.simple ⟨none, none, []⟩], 23) :=
  (C2_parse_selectors_sorted_stable ("div.note, .note, #x, * \x7b".toList) 0
    [Css.Selector.simple ⟨some ("div".toList), none, ["note".toList]⟩,
     Css.Selector.simple ⟨none, none, ["note".toList]⟩,
     Css.Selector.simple ⟨none, some ("x".toList), []⟩,
     Css.Selector.simple ⟨none, none, []⟩] 23 (by rfl)).1

/-- C3: the derived specificity of a simple selector is
`(1 if id present else 0, number of classes, 1 if tag name present else 0)`,
and the selectors `div.note`, `.note`, `#x`, `*` have specificities
`(0,1,1)`, `(0,1,0)`, `(1,0,0)`, `(0,0,0)` and sort (descending,
lexicographic) into the order `#x`, `div.note`, `.note`, `*`. -/
theorem C3_specificity_derived_triple :
    (∀ (tag id : Option (List Char)) (cls : List (List Char)),
      Css.Selector.specificity (.simple ⟨tag, id, cls⟩) =
        ((if id.isSome then 1 else 0), cls.length, (if tag.isSome then 1 else 0))) ∧
    Css.Selector.specificity (.simple ⟨some ("div".toList), none, ["note".toList]⟩) = (0, 1, 1) ∧
    Css.Selector.specificity (.simple ⟨none, none, ["note".toList]⟩) = (0, 1, 0) ∧
    Css.Selector.specificity (.simple ⟨none, some ("x".toList), []⟩) = (1, 0, 0) ∧
    Css.Selector.specificity (.simple ⟨none, none, []⟩) = (0, 0, 0) ∧
    Css.sortSelectors
        [Css.Selector.simple ⟨some ("div".toList), none, ["note".toList]⟩,
         Css.Selector.simple ⟨none, none, ["note".toList]⟩,
         Css.Selector.simple ⟨none, some ("x".toList), []⟩,
         Css.Selector.simple ⟨none, none, []⟩] =
      [Css.Selector.simple ⟨none, some ("x".toList), []⟩,
       Css.Selector.simple ⟨some ("div".toList), none, ["note".toList]⟩,
       Css.Selector.simple ⟨none, none, ["note".toList]⟩,
       Css.Selector.simple ⟨none, none, []⟩] := by
  refine ⟨?_, rfl, rfl, rfl, rfl, rfl⟩
  intro tag id cls
  cases id <;> cases tag <;> rfl


/-- C1: for every input string, the HTML entry point first parses the
sequence of top-level sibling nodes; if that sequence has exactly one node,
`parse` returns that node itself, and otherwise it returns an `html` element
with an empty attribute map and all top-level nodes as children in source
order; in particular `<p></p><p></p>` yields an `html` element with exactly
two `p` element children. -/
theorem C1_parse_root_wrapping :
    (∀ (input : List Char) (ns : List Node) (p : Nat),
      Html.parse_nodes (Html.htmlFuel input) input 0 = .ok (ns, p) →
      (∀ n, ns = [n] → Html.parse input = .ok n) ∧
      (ns.length ≠ 1 → Html.parse input = .ok (Node.element ("html".toList) [] ns))) ∧
    Html.parse ("<p></p><p></p>".toList) =
      .ok (Node.element ("html".toList) []
        [Node.element ("p".toList) [] [], Node.element ("p".toList) [] []]) := by
  constructor
  · intro input ns p h
    constructor
    · intro n hn
      subst hn
      unfold Html.parse
      rw [h]
    · intro hlen
      unfold Html.parse
      rw [h]
      cases ns with
      | nil => rfl
      | cons a t =>
        cases t with
        | nil => simp at hlen
        | cons b t2 => rfl
  · rfl

/-- C1 witness: on the single-top-level-node input `<p></p>` the parsed node
is returned directly. -/
theorem C1_parse_root_wrapping_witness :
    Html.parse ("<p></p>".toList) = .ok (Node.element ("p".toList) [] []) :=
  (C1_parse_root_wrapping.1 ("<p></p>".toList) [Node.element ("p".toList) [] []] 7
    (by rfl)).1 _ rfl

/-- C4 (code bug): `consume_char` on a final multi-byte character advances
the position by `1` instead of the character byte length: on input `¢`
(2 UTF-8 bytes) it returns position 1, which is not a character boundary and
not end-of-input, so the next read panics on the slice. -/
theorem C4_consume_char_multibyte_bug :
    consume_char ['¢'] 0 = .ok ('¢', 1) ∧
    Char.utf8Size '¢' = 2 ∧
    boundary ['¢'] 1 = false ∧
    eof ['¢'] 1 = false ∧
    next_char ['¢'] 1 = .error .invalidPos :=
  ⟨rfl, rfl, rfl, rfl, rfl⟩

/-- C5 counterexample: on `<a>` the literal `<` of the closing tag is absent
because the input ends, and the parse fails with `unexpectedEndOfInput`
(the cursor unwrap panic), not with `malformedTag` as the claim states. -/
theorem C5_missing_literal_counterexample :
    Html.parse ("<a>".toList) = .error .unexpectedEndOfInput ∧
    Err.unexpectedEndOfInput ≠ Err.malformedTag :=
  ⟨rfl, by decide⟩

/-- C5 (amended): whenever `parse_element` reaches the closing tag name and
it differs from the opening tag name, it fails with `tagMismatch` (and
`<a></b>` does so); an expected literal character that is present but wrong
fails with `malformedTag` (e.g. `<a></a]`), while input ending where a
literal is expected fails with `unexpectedEndOfInput` (e.g. `<a>`). -/
theorem C5_tag_mismatch_amended :
    (∀ (f : Nat) (input : List Char) (pos p1 p2 p3 p4 p5 p6 p7 p8 : Nat)
       (tag tag2 : List Char) (attrs : AttrMap) (children : List Node),
      consume_char input pos = .ok ('<', p1) →
      Html.parse_tag_name input p1 = .ok (tag, p2) →
      Html.parse_attributes input p2 = .ok (attrs, p3) →
      consume_char input p3 = .ok ('>', p4) →
      Html.parse_nodes f input p4 = .ok (children, p5) →
      consume_char input p5 = .ok ('<', p6) →
      consume_char input p6 = .ok ('/', p7) →
      Html.parse_tag_name input p7 = .ok (tag2, p8) →
      tag2 ≠ tag →
      Html.parse_element (f + 1) input pos = .error .tagMismatch) ∧
    Html.parse ("<a></b>".toList) = .error .tagMismatch ∧
    Html.parse ("<a></a]".toList) = .error .malformedTag ∧
    Html.parse ("<a>".toList) = .error .unexpectedEndOfInput := by
  refine ⟨?_, rfl, rfl, rfl⟩
  intro f input pos p1 p2 p3 p4 p5 p6 p7 p8 tag tag2 attrs children
    h1 h2 h3 h4 h5 h6 h7 h8 hne
  simp [Html.parse_element, h1, h2, h3, h4, h5, h6, h7, h8, hne]

/-- C5 witness for the amended mismatch statement, at `<a></b>`. -/
theorem C5_tag_mismatch_amended_witness :
    Html.parse_element 2 ("<a></b>".toList) 0 = .error .tagMismatch :=
  C5_tag_mismatch_amended.1 1 ("<a></b>".toList) 0 1 2 2 3 3 4 5 6
    "a".toList ("b".toList) [] []
    (by rfl) (by rfl) (by rfl) (by rfl) (by rfl) (by rfl) (by rfl) (by rfl)
    (by decide)

/-- C9: the empty input parses successfully to an `html` element with an
empty attribute map and no children (the zero-top-level-node case of the
wrapping rule), and whitespace-only input gives the same result. -/
theorem C9_parse_empty_input :
    Html.parse ("".toList) = .ok (Node.element ("html".toList) [] []) ∧
    Html.parse (" \t\n ".toList) = .ok (Node.element ("html".toList) [] []) :=
  ⟨rfl, rfl⟩


theorem consume_char_err {input : List Char} {pos : Nat} {e : Err}
    (h : consume_char input pos = .error e) :
    e = .invalidPos ∨ e = .unexpectedEndOfInput := by
  unfold consume_char at h
  cases hdb : drop_bytes input pos with
  | none =>
    rw [hdb] at h
    injection h with h
    exact Or.inl h.symm
  | some s =>
    rw [hdb] at h
    cases s with
    | nil =>
      injection h with h
      exact Or.inr h.symm
    | cons c rest => cases h

/-- C6 counterexample: on `<a href="x>` (opening quote never closed) the
parse fails with `unexpectedEndOfInput` — the `unwrap()` inside
`consume_char` — not with `unterminatedAttributeValue` as the claim
states. -/
theorem C6_unterminated_counterexample :
    Html.parse ("<a href=\"x>".toList) = .error .unexpectedEndOfInput ∧
    Err.unexpectedEndOfInput ≠ Err.unterminatedAttributeValue :=
  ⟨rfl, by decide⟩

/-- C6 (amended): when `parse_attr_value` succeeds it returns exactly the
characters strictly between two occurrences of the same quote character
(`"` or `\'`); when the closing quote is absent the parse fails — with the
cursor error `unexpectedEndOfInput`, since the dedicated
`unterminatedAttributeValue` assert can never fire (`consume_until` only
stops at the matching quote or at end-of-input, where `consume_char`'s
unwrap panics first) — and no silently truncated value is returned. -/
theorem C6_attr_value_amended :
    (∀ (input : List Char) (pos : Nat) (v : List Char) (p : Nat),
      Html.parse_attr_value input pos = .ok (v, p) →
      ∃ q rest, (q = '"' ∨ q = '\'') ∧
        drop_bytes input pos = some (q :: (v ++ q :: rest)) ∧
        (∀ c ∈ v, c ≠ q) ∧ drop_bytes input p = some rest) ∧
    (∀ (input : List Char) (pos : Nat),
      Html.parse_attr_value input pos ≠ .error .unterminatedAttributeValue) ∧
    Html.parse ("<a href=\"x>".toList) = .error .unexpectedEndOfInput := by
  refine ⟨?_, ?_, rfl⟩
  · intro input pos v p h
    rw [Html.parse_attr_value] at h
    split at h
    · cases h
    · rename_i q p1 hcc
      split at h
      · rename_i hq
        split at h
        · cases h
        · rename_i v2 p2 hcu
          split at h
          · cases h
          · rename_i q2 p3 hcc2
            split at h
            · rename_i hq2
              simp at h
              obtain ⟨rfl, rfl⟩ := h
              subst hq2
              have hsz : q2.utf8Size = 1 := by
                rcases hq with rfl | rfl <;> decide
              obtain ⟨rest0, hdb, hp⟩ := consume_char_ok hcc
              have hp1 : p1 = pos + 1 := by
                rcases hp with ⟨-, h1⟩ | ⟨-, h1⟩ <;> omega
              have hdb1 : drop_bytes input p1 = some rest0 := by
                rw [hp1, show pos + 1 = pos + q2.utf8Size by omega]
                exact drop_bytes_advance _ _ _ _ hdb
              obtain ⟨rest1, hsplit, hdb2, hall⟩ := consume_until_decomp _ hcu hdb1
              obtain ⟨rest2, hdb3, hp3⟩ := consume_char_ok hcc2
              rw [hdb2] at hdb3
              injection hdb3 with hdb3
              have hstop : p3 = p2 + 1 := by
                rcases hp3 with ⟨-, h1⟩ | ⟨-, h1⟩ <;> omega
              have hdbp : drop_bytes input p3 = some rest2 := by
                rw [hstop, show p2 + 1 = p2 + q2.utf8Size by omega]
                exact drop_bytes_advance _ _ _ _ (by rw [hdb2, hdb3])
              refine ⟨q2, rest2, hq, ?_, ?_, hdbp⟩
              · rw [hdb, hsplit, hdb3]
              · intro c hc
                have hfc := hall c hc
                simpa using hfc
            · cases h
      · cases h
  · intro input pos h
    rw [Html.parse_attr_value] at h
    split at h
    · rename_i e hcc
      injection h with h
      subst h
      rcases consume_char_err hcc with h2 | h2 <;> cases h2
    · rename_i q p1 hcc
      split at h
      · rename_i hq
        split at h
        · rename_i e hcu
          injection h with h
          subst h
          rcases consume_until_err _ hcu with h2 | h2 | h2 <;> cases h2
        · rename_i v p2 hcu
          split at h
          · rename_i e hcc2
            injection h with h
            subst h
            rcases consume_char_err hcc2 with h2 | h2 <;> cases h2
          · rename_i q2 p3 hcc2
            split at h
            · cases h
            · rename_i hq2
              obtain ⟨rest2, hdb3, -⟩ := consume_char_ok hcc2
              have hnc2 : next_char input p2 = .ok q2 := consume_char_next_char hcc2
              rcases consume_until_stop _ hcu with he | ⟨c, hc, hcf⟩
              · rw [eof_false_of_drop_bytes_cons hdb3] at he
                cases he
              · rw [hnc2] at hc
                injection hc with hc
                subst hc
                simp at hcf
                exact hq2 hcf
      · rename_i hq
        cases h

/-- C6 witness for the amended statement: `parse_attr_value` on `"hi"`
returns exactly `hi` with the double quote on both sides. -/
theorem C6_attr_value_amended_witness :
    ∃ q rest, (q = '"' ∨ q = '\'') ∧
      drop_bytes ("\"hi\"".toList) 0 = some (q :: ("hi".toList ++ q :: rest)) ∧
      (∀ c ∈ "hi".toList, c ≠ q) ∧ drop_bytes ("\"hi\"".toList) 4 = some rest :=
  C6_attr_value_amended.1 ("\"hi\"".toList) 0 ("hi".toList) 4 (by rfl)

/-- C7: for every attribute list, the map returned by `parse_attributes`
binds each name to the value of the pair that occurred *last* in source
order, contains each name exactly once (keys are `Nodup`), and the loop
stops with the cursor on `>`. -/
theorem C7_attributes_last_write_wins :
    ∀ (input : List Char) (pos : Nat) (ps : List (List Char × List Char)) (p : Nat),
      Html.attr_pairs input pos = .ok (ps, p) →
      ∃ m, Html.parse_attributes input pos = .ok (m, p) ∧
        (∀ key, attr_lookup m key = lastVal ps key) ∧
        (m.map Prod.fst).Nodup ∧
        next_char input p = .ok '>' := by
  intro input pos ps p h
  unfold Html.attr_pairs at h
  have halign := parse_attributes_loop_align _ h []
  refine ⟨insertAll [] ps, ?_, ?_, ?_, ?_⟩
  · unfold Html.parse_attributes
    exact halign
  · intro key
    rw [insertAll_lookup]
    cases hl : lastVal ps key with
    | some w => rfl
    | none => rfl
  · exact insertAll_keys_nodup ps [] (by simp)
  · exact parse_attributes_loop_stops _ halign

/-- C7 witness: on ` a="1" b="2" a="3">` the map binds `a` to the later
value `3`, holds each key once, and stops on `>`. -/
theorem C7_attributes_last_write_wins_witness :
    ∃ m, Html.parse_attributes (" a=\"1\" b=\"2\" a=\"3\">".toList) 0 = .ok (m, 18) ∧
      (∀ key, attr_lookup m key =
        lastVal [("a".toList, "1".toList), ("b".toList, "2".toList),
                 ("a".toList, "3".toList)] key) ∧
      (m.map Prod.fst).Nodup ∧
      next_char (" a=\"1\" b=\"2\" a=\"3\">".toList) 18 = .ok '>' :=
  C7_attributes_last_write_wins (" a=\"1\" b=\"2\" a=\"3\">".toList) 0
    [("a".toList, "1".toList), ("b".toList, "2".toList), ("a".toList, "3".toList)]
    18 (by rfl)

/-- C8: the CSS value grammar maps `#336699` to `Color(51,102,153,255)`
(six hex digits read as RRGGBB, alpha fixed at 255), `20px` to
`Length(20.0, Px)`, and the bare identifier `block` to `Keyword("block")`,
both standalone and inside `parse_declaration`. -/
theorem C8_parse_value_literals :
    Css.parse_value ("#336699".toList) 0 =
      .ok (.colorValue ⟨51, 102, 153, 255⟩, 7) ∧
    Css.parse_value ("20px".toList) 0 = .ok (.length 20 .px, 4) ∧
    Css.parse_value ("block".toList) 0 = .ok (.keyword ("block".toList), 5) ∧
    Css.parse_declaration ("color: #336699;".toList) 0 =
      .ok (⟨"color".toList, .colorValue ⟨51, 102, 153, 255⟩⟩, 15) ∧
    Css.parse_declaration ("margin: 20px;".toList) 0 =
      .ok (⟨"margin".toList, .length 20 .px⟩, 13) ∧
    Css.parse_declaration ("display: block;".toList) 0 =
      .ok (⟨"display".toList, .keyword ("block".toList)⟩, 15) :=
  ⟨rfl, rfl, rfl, rfl, rfl, rfl⟩

/-- C10: every `Text` node produced by a successful HTML parse is non-empty
and begins with a non-whitespace character (whitespace-only spans at node
boundaries produce no `Text` node at all); in particular `<a> \n </a>`
parses to an `a` element with zero children. -/
theorem C10_text_nodes_nonwhitespace :
    (∀ (input : List Char) (n : Node), Html.parse input = .ok n → textOk n = true) ∧
    Html.parse ("<a> \n </a>".toList) = .ok (Node.element ("a".toList) [] []) := by
  constructor
  · intro input n h
    cases hpn : Html.parse_nodes (Html.htmlFuel input) input 0 with
    | error e =>
      unfold Html.parse at h
      rw [hpn] at h
      cases h
    | ok r =>
      obtain ⟨ns, p⟩ := r
      unfold Html.parse at h
      rw [hpn] at h
      have hok := (html_textOk (Html.htmlFuel input) input).1 _ _ _ hpn
      cases ns with
      | nil =>
        simp at h
        subst h
        rfl
      | cons a t =>
        cases t with
        | nil =>
          simp at h
          subst h
          simp only [textOkList, Bool.and_true] at hok
          exact hok
        | cons b t2 =>
          simp at h
          subst h
          simp only [textOk]
          exact hok
  · rfl

/-- C10 witness: `<a> hi </a>` parses with a text child whose content
starts with the non-whitespace character `h`. -/
theorem C10_text_nodes_nonwhitespace_witness :
    textOk (Node.element ("a".toList) [] [Node.text ("hi ".toList)]) = true :=
  C10_text_nodes_nonwhitespace.1 ("<a> hi </a>".toList)
    (Node.element ("a".toList) [] [Node.text ("hi ".toList)]) (by rfl)

end Jun
